/-
  Verification of the velox_api typed radix-tree router core.

  Shallow embedding of:
    - src/lib/utils/validators.js   (validator registry: test/convert)
    - src/lib/utils/radix-tree.js   (RadixTree: insert / search / backtracking)
    - src/lib/utils/cache.js        (LRUCache: get / set / delete / clear, LRU + TTL)
    - src/lib/core/router.js        (VeloxRouter: addRoute / find, per-method trees)

  JavaScript Maps are modelled as association lists in insertion order
  (Map.set updates an existing key in place, otherwise appends), the cache's
  doubly linked list as a list in recency order (head = most recently used),
  and Date.now() as an explicit natural-number clock passed to each operation.
-/
import Mathlib

namespace Velox

/-! ### Regular-expression engine

The validator registry (validators.js) is a table of anchored JavaScript
regexes; `regex.test(s)` on an anchored `^...$` pure regex (no lookaround, no
backreferences) holds iff the whole string is in the regex's language, which a
Brzozowski-derivative matcher decides. -/

/-- Regular expressions over characters; `pred` is a character class. -/
inductive RE : Type where
  | emp : RE
  | eps : RE
  | pred (p : Char → Bool) : RE
  | cat (a b : RE) : RE
  | alt (a b : RE) : RE
  | star (a : RE) : RE

/-- Does the regex accept the empty string? -/
def RE.nullable : RE → Bool
  | .emp => false
  | .eps => true
  | .pred _ => false
  | .cat a b => a.nullable && b.nullable
  | .alt a b => a.nullable || b.nullable
  | .star _ => true

/-- Brzozowski derivative with respect to one character. -/
def RE.deriv : RE → Char → RE
  | .emp, _ => .emp
  | .eps, _ => .emp
  | .pred p, c => if p c then .eps else .emp
  | .cat a b, c =>
      if a.nullable then .alt (.cat (a.deriv c) b) (b.deriv c)
      else .cat (a.deriv c) b
  | .alt a b, c => .alt (a.deriv c) (b.deriv c)
  | .star a, c => .cat (a.deriv c) (.star a)

/-- Full-string match (the anchored `^...$` semantics of `regex.test`). -/
def RE.matches (r : RE) (cs : List Char) : Bool :=
  (cs.foldl RE.deriv r).nullable

/-- Single literal character. -/
def RE.ch (c : Char) : RE := .pred (fun d => d == c)

/-- Literal character sequence. -/
def RE.strLit (s : String) : RE :=
  s.data.foldr (fun c r => .cat (RE.ch c) r) .eps

/-- Embeds `r?` -/
def RE.opt (r : RE) : RE := .alt r .eps

/-- Embeds `r+` -/
def RE.plus (r : RE) : RE := .cat r (.star r)

/-- Embeds `r{n}` -/
def RE.rep (r : RE) : Nat → RE
  | 0 => .eps
  | n + 1 => .cat r (RE.rep r n)

/-- Embeds `r{m,n}`: `m` required copies then `n - m` optional ones. -/
def RE.rng (r : RE) (m n : Nat) : RE :=
  .cat (RE.rep r m) (RE.rep (RE.opt r) (n - m))

/-! ### Character classes used by validators.js -/

/-- Embeds `\d` -/
def isDig (c : Char) : Bool := c.isDigit

/-- Embeds `[a-zA-Z]` -/
def isAsciiLetter (c : Char) : Bool :=
  ('a' ≤ c && c ≤ 'z') || ('A' ≤ c && c ≤ 'Z')

/-- Embeds `[a-z]` -/
def isLower (c : Char) : Bool := 'a' ≤ c && c ≤ 'z'

/-- Embeds `[a-fA-F0-9]` -/
def isHexDig (c : Char) : Bool :=
  c.isDigit || ('a' ≤ c && c ≤ 'f') || ('A' ≤ c && c ≤ 'F')

/-- Embeds `\w` = `[A-Za-z0-9_]` -/
def isWordChar (c : Char) : Bool :=
  isAsciiLetter c || c.isDigit || c == '_'

/-- JavaScript `\\s`: whitespace characters (ASCII controls, space, NBSP, BOM,
and the Unicode space separators), compared by code point. -/
def isJsSpace (c : Char) : Bool :=
  let n := c.toNat
  n == 0x9 || n == 0xa || n == 0xb || n == 0xc || n == 0xd || n == 0x20 ||
  n == 0xa0 || n == 0xfeff || n == 0x1680 || (0x2000 ≤ n && n ≤ 0x200a) ||
  n == 0x2028 || n == 0x2029 || n == 0x202f || n == 0x205f || n == 0x3000

/-! ### The validator table (validators.js, `VALIDATORS`) -/

/-- Embeds `/^-?\d+(\.\d+)?$/` -/
def numberRE : RE :=
  .cat (RE.opt (RE.ch '-'))
    (.cat (RE.plus (.pred isDig))
      (RE.opt (.cat (RE.ch '.') (RE.plus (.pred isDig)))))

/-- Embeds `/^-?\d+$/` -/
def intRE : RE :=
  .cat (RE.opt (RE.ch '-')) (RE.plus (.pred isDig))

/-- Embeds `/^-?\d+\.\d+$/` -/
def floatRE : RE :=
  .cat (RE.opt (RE.ch '-'))
    (.cat (RE.plus (.pred isDig)) (.cat (RE.ch '.') (RE.plus (.pred isDig))))

/-- Embeds `/^[a-zA-Z]+$/` -/
def alphaRE : RE := RE.plus (.pred isAsciiLetter)

/-- Embeds `/^[a-zA-Z0-9]+$/` -/
def alphanumericRE : RE :=
  RE.plus (.pred (fun c => isAsciiLetter c || c.isDigit))

/-- Embeds `/^[0-9a-f]{8}-...-[0-9a-f]{12}$/i` (case-insensitive hex groups). -/
def uuidRE : RE :=
  .cat (RE.rep (.pred isHexDig) 8) (.cat (RE.ch '-')
    (.cat (RE.rep (.pred isHexDig) 4) (.cat (RE.ch '-')
      (.cat (RE.rep (.pred isHexDig) 4) (.cat (RE.ch '-')
        (.cat (RE.rep (.pred isHexDig) 4) (.cat (RE.ch '-')
          (RE.rep (.pred isHexDig) 12))))))))

/-- Embeds `/^[^\s@]+@[^\s@]+\.[^\s@]+$/` -/
def emailRE : RE :=
  let atom : RE := .pred (fun c => !(isJsSpace c) && !(c == '@'))
  .cat (RE.plus atom)
    (.cat (RE.ch '@')
      (.cat (RE.plus atom) (.cat (RE.ch '.') (RE.plus atom))))

/-- Embeds `/^(https?:\/\/)?([\da-z\.-]+)\.([a-z\.]{2,6})([\/\w \.-]*)*\/?$/` -/
def urlRE : RE :=
  let scheme : RE :=
    .cat (RE.strLit "http") (.cat (RE.opt (RE.ch 's')) (RE.strLit "://"))
  let hostChar : RE := .pred (fun c => c.isDigit || isLower c || c == '.' || c == '-')
  let tldChar : RE := .pred (fun c => isLower c || c == '.')
  let pathChar : RE := .pred (fun c => c == '/' || isWordChar c || c == ' ' || c == '.' || c == '-')
  .cat (RE.opt scheme)
    (.cat (RE.plus hostChar)
      (.cat (RE.ch '.')
        (.cat (RE.rng tldChar 2 6)
          (.cat (.star (.star pathChar)) (RE.opt (RE.ch '/'))))))

/-- Embeds `/^[a-z0-9]+(?:-[a-z0-9]+)*$/` -/
def slugRE : RE :=
  let run : RE := RE.plus (.pred (fun c => isLower c || c.isDigit))
  .cat run (.star (.cat (RE.ch '-') run))

/-- Embeds `/^\d{4}-\d{2}-\d{2}$/` -/
def dateRE : RE :=
  .cat (RE.rep (.pred isDig) 4) (.cat (RE.ch '-')
    (.cat (RE.rep (.pred isDig) 2) (.cat (RE.ch '-') (RE.rep (.pred isDig) 2))))

/-- Embeds `/^\+?\d{1,15}$/` -/
def phoneRE : RE :=
  .cat (RE.opt (RE.ch '+')) (RE.rng (.pred isDig) 1 15)

/-- Embeds `25[0-5]|2[0-4]\d|1\d{2}|[1-9]?\d` (one IPv4 octet). -/
def ipOctetRE : RE :=
  .alt (.cat (RE.strLit "25") (.pred (fun c => '0' ≤ c && c ≤ '5')))
    (.alt (.cat (RE.ch '2') (.cat (.pred (fun c => '0' ≤ c && c ≤ '4')) (.pred isDig)))
      (.alt (.cat (RE.ch '1') (RE.rep (.pred isDig) 2))
        (.cat (RE.opt (.pred (fun c => '1' ≤ c && c ≤ '9'))) (.pred isDig))))

/-- Embeds `/^(?:(?:...)\.){3}(?:...)$/` -/
def ipRE : RE :=
  .cat (RE.rep (.cat ipOctetRE (RE.ch '.')) 3) ipOctetRE

/-- Embeds `/^[a-fA-F0-9]+$/` -/
def hexRE : RE := RE.plus (.pred isHexDig)

/-- Embeds `/^v\d+$/` -/
def versionRE : RE := .cat (RE.ch 'v') (RE.plus (.pred isDig))

/-- Embeds `/^(true|false|1|0)$/` -/
def booleanRE : RE :=
  .alt (RE.strLit "true")
    (.alt (RE.strLit "false") (.alt (RE.ch '1') (RE.ch '0')))

/-- The `VALIDATORS` table: type-tag name to regex. -/
def lookupValidator : String → Option RE
  | "number" => some numberRE
  | "int" => some intRE
  | "float" => some floatRE
  | "alpha" => some alphaRE
  | "alphanumeric" => some alphanumericRE
  | "uuid" => some uuidRE
  | "email" => some emailRE
  | "url" => some urlRE
  | "slug" => some slugRE
  | "date" => some dateRE
  | "phone" => some phoneRE
  | "ip" => some ipRE
  | "hex" => some hexRE
  | "version" => some versionRE
  | "boolean" => some booleanRE
  | _ => none

/-- Embeds `getValidatorTypes()`: `Object.keys(VALIDATORS)` in declaration order. -/
def validatorTypes : List String :=
  ["number", "int", "float", "alpha", "alphanumeric", "uuid", "email", "url",
   "slug", "date", "phone", "ip", "hex", "version", "boolean"]

/-- Embeds `validateParam(value, type)`: unknown types are always-valid passthroughs. -/
def validateParam (value : String) (ty : String) : Bool :=
  match lookupValidator ty with
  | none => true
  | some re => re.matches value.data

/-! ### Converted parameter values

`convertParam` returns a JS string, number, or boolean.  JS `Number(value)` is
modelled exactly on the decimal literals the `number`/`int`/`float` validators
accept (`-?digits(.digits)?`), as the exact rational they denote; any other
string maps to `nan` (`Number` of a non-numeric string is `NaN`). -/

/-- A converted route-parameter value. -/
inductive PVal : Type where
  | str (s : String) : PVal
  | num (q : ℚ) : PVal
  | nan : PVal
  | bool (b : Bool) : PVal
deriving DecidableEq, Repr

/-- Numeric value of a digit list (most significant first). -/
def natOfDigits (l : List Char) : Nat :=
  l.foldl (fun a c => a * 10 + (c.toNat - 48)) 0

/-- Embeds `Number()` on an unsigned decimal literal `digits(.digits)?`. -/
def parseUnsignedDecimal (l : List Char) : Option ℚ :=
  match l.span (fun c => !(c == '.')) with
  | (ip, []) =>
      if ip ≠ [] ∧ ip.all Char.isDigit then some (natOfDigits ip) else none
  | (ip, _ :: fp) =>
      if ip ≠ [] ∧ fp ≠ [] ∧ ip.all Char.isDigit ∧ fp.all Char.isDigit then
        some ((natOfDigits ip : ℚ) + (natOfDigits fp : ℚ) / 10 ^ fp.length)
      else none

/-- Embeds `Number()` on an optionally negated decimal literal; `none` is `NaN`. -/
def parseDecimal (s : String) : Option ℚ :=
  match s.data with
  | '-' :: rest => (parseUnsignedDecimal rest).map Neg.neg
  | l => parseUnsignedDecimal l

/-- Embeds `convertParam(value, type)` (validators.js): numeric types go through
`Number`, `boolean` compares against `'true'`/`'1'`, everything else (or a
missing type) passes the string through unchanged. -/
def convertParam (value : String) (ty : Option String) : PVal :=
  match ty with
  | some "number" | some "int" | some "float" =>
      match parseDecimal value with
      | some q => .num q
      | none => .nan
  | some "boolean" => .bool (value == "true" || value == "1")
  | _ => .str value

/-! ### JavaScript string/Map helpers -/

/-- Embeds `s.split(sep)` for a one-character separator (kept on `List Char` so the
kernel evaluates it directly). -/
def splitOnChar (sep : Char) : List Char → List (List Char)
  | [] => [[]]
  | c :: rest =>
    match splitOnChar sep rest with
    | [] => [[c]]
    | g :: gs => if c == sep then [] :: g :: gs else (c :: g) :: gs

/-- Embeds `path.split('/').filter(Boolean)`: runtime path segments. -/
def segsOf (path : String) : List String :=
  ((splitOnChar '/' path.data).filter (fun g => !g.isEmpty)).map String.mk

/-- Embeds `Map.get(k)` on an insertion-ordered association list. -/
def mapGet (m : List (String × α)) (k : String) : Option α :=
  (m.find? (fun e => e.1 == k)).map (fun e => e.2)

/-- Embeds `Map.set(k, v)`: update in place if the key exists, else append. -/
def mapSet (m : List (String × α)) (k : String) (v : α) : List (String × α) :=
  match m with
  | [] => [(k, v)]
  | e :: rest => if e.1 == k then (k, v) :: rest else e :: mapSet rest k v

/-- Accumulated route params (a JS object: string keys, insertion order). -/
abbrev Params := List (String × PVal)

/-- Embeds `newParams = { ...params }; newParams[name] = v` — copy-on-branch write. -/
def objSet (params : Params) (name : String) (v : PVal) : Params :=
  mapSet params name v

/-! ### Pattern segments (radix-tree.js `_parsePathSegments`) -/

/-- One parsed pattern segment: a literal or a `:name` / `:name=type` param. -/
inductive Segment : Type where
  | lit (value : String) : Segment
  | par (name : String) (ty : Option String) : Segment
deriving DecidableEq, Repr

/-- Is this segment a parameter? -/
def Segment.isParam : Segment → Bool
  | .lit _ => false
  | .par _ _ => true

/-- Parse one part: a leading `:` declares a parameter, whose name is the text
before the first `=` and whose type is the text between the first and second
`=` (absent if there is no `=`). -/
def parseSeg (part : String) : Segment :=
  match part.data with
  | ':' :: rest =>
    match splitOnChar '=' rest with
    | [] => .par "" none
    | n :: restP =>
      .par (String.mk n) (match restP with | [] => none | t :: _ => some (String.mk t))
  | _ => .lit part

/-- Embeds `_parsePathSegments(path)`. -/
def parsePathSegments (path : String) : List Segment :=
  (((splitOnChar '/' path.data).filter (fun g => !g.isEmpty)).map String.mk).map parseSeg

/-! ### Radix tree nodes (radix-tree.js `RadixNode`) -/

/-- A trie node: literal text, insertion-ordered children Map, optional
terminal handler, and the parameter metadata (`isWildcard` is the source's
name for "parameter node"). -/
inductive RadixNode (H : Type) : Type where
  | mk (pre : String) (children : List (String × RadixNode H)) (handler : Option H)
       (isWildcard : Bool) (paramName : Option String) (paramType : Option String)
       (isEndpoint : Bool) : RadixNode H

/-- The children Map. -/
def RadixNode.children : RadixNode H → List (String × RadixNode H)
  | ⟨_, c, _, _, _, _, _⟩ => c

/-- The attached handler, if any. -/
def RadixNode.handler : RadixNode H → Option H
  | ⟨_, _, h, _, _, _, _⟩ => h

/-- Is this a parameter node? -/
def RadixNode.isWildcard : RadixNode H → Bool
  | ⟨_, _, _, w, _, _, _⟩ => w

/-- The parameter name, for parameter nodes. -/
def RadixNode.paramName : RadixNode H → Option String
  | ⟨_, _, _, _, n, _, _⟩ => n

/-- The parameter type tag, for parameter nodes. -/
def RadixNode.paramType : RadixNode H → Option String
  | ⟨_, _, _, _, _, t, _⟩ => t

/-- Is this node a valid route end? -/
def RadixNode.isEndpoint : RadixNode H → Bool
  | ⟨_, _, _, _, _, _, e⟩ => e

/-- Embeds `new RadixNode(prefix)` — a fresh literal node. -/
def RadixNode.litNode (v : String) : RadixNode H :=
  ⟨v, [], none, false, none, none, false⟩

/-- Embeds `new RadixNode(key, true, name, type)` — a fresh parameter node. -/
def RadixNode.paramNode (key name : String) (ty : Option String) : RadixNode H :=
  ⟨key, [], none, true, some name, ty, false⟩

/-- Embeds `node.isEndpoint = true; node.handler = handler`. -/
def RadixNode.endpointWith (h : H) : RadixNode H → RadixNode H
  | ⟨p, c, _, w, pn, pt, _⟩ => ⟨p, c, some h, w, pn, pt, true⟩

/-- Replace the children Map. -/
def RadixNode.withChildren (cs : List (String × RadixNode H)) : RadixNode H → RadixNode H
  | ⟨p, _, h, w, pn, pt, e⟩ => ⟨p, cs, h, w, pn, pt, e⟩

/-- JS truthiness of a nullable string (`null` and `''` are falsy). -/
def tyTruthy : Option String → Bool
  | none => false
  | some t => !t.data.isEmpty

/-- The Map key of a parameter child: `` `:${name}=${type}` `` when the type is
truthy, else `` `:${name}` ``. -/
def paramKey (name : String) (ty : Option String) : String :=
  match ty with
  | some t => if t.data.isEmpty then ":" ++ name else ":" ++ name ++ "=" ++ t
  | none => ":" ++ name

/-- The scan in `insert` for an existing parameter child with this exact
name and type (first match in insertion order, with its Map key). -/
def findParamChild (cs : List (String × RadixNode H)) (name : String)
    (ty : Option String) : Option (String × RadixNode H) :=
  cs.find? (fun e =>
    e.2.isWildcard && (e.2.paramName == some name) && (e.2.paramType == ty))

/-- The trie-walking loop of `insert`: follow or create one child per
segment, then mark the final node as a terminal with this handler. -/
def insertSegs (node : RadixNode H) : List Segment → H → RadixNode H
  | [], h => node.endpointWith h
  | seg :: rest, h =>
    match seg with
    | .par name ty =>
      match findParamChild node.children name ty with
      | some (key, c) =>
          node.withChildren (mapSet node.children key (insertSegs c rest h))
      | none =>
          let key := paramKey name ty
          node.withChildren
            (mapSet node.children key (insertSegs (RadixNode.paramNode key name ty) rest h))
    | .lit v =>
      match mapGet node.children v with
      | some c => node.withChildren (mapSet node.children v (insertSegs c rest h))
      | none =>
          node.withChildren (mapSet node.children v (insertSegs (RadixNode.litNode v) rest h))

/-- A resolved match: the terminal node's handler and the decoded params. -/
structure SearchRes (H : Type) : Type where
  handler : Option H
  params : Params
deriving DecidableEq, Repr

/-- Does this child's declared type have a validator? The sort comparator's
`a.paramType && VALIDATOR_TYPES.includes(a.paramType)`. -/
def hasRegisteredType (c : RadixNode H) : Bool :=
  tyTruthy c.paramType && validatorTypes.contains (c.paramType.getD "")

/-- The stable `Array.sort` by the comparator that puts children with a
registered validator type first and otherwise keeps the original (insertion)
order: a stable partition. -/
def sortWildcards (cs : List (RadixNode H)) : List (RadixNode H) :=
  cs.filter hasRegisteredType ++ cs.filter (fun c => !hasRegisteredType c)

/-- The parameter children of a node, in insertion order. -/
def wildcardsOf (cs : List (String × RadixNode H)) : List (RadixNode H) :=
  (cs.map (fun e => e.2)).filter RadixNode.isWildcard

/-- The candidate loop of `_searchNode` over the sorted parameter children:
skip a typed child whose validation fails, otherwise convert the segment,
bind it in a copy of the params, and recurse (`recur`, the search at the
next segment index); the first full match wins. -/
def tryChildren (recur : RadixNode H → Params → Option (SearchRes H)) (seg : String) :
    List (RadixNode H) → Params → Option (SearchRes H)
  | [], _ => none
  | c :: cs, params =>
    if tyTruthy c.paramType && !validateParam seg (c.paramType.getD "") then
      tryChildren recur seg cs params
    else
      match recur c (objSet params (c.paramName.getD "")
        (convertParam seg c.paramType)) with
      | some r => some r
      | none => tryChildren recur seg cs params

/-- Embeds `_searchNode(node, segments, index, params)` with the remaining segments
as the (first, structurally decreasing) list argument: try the exact literal
child first, then the parameter children in type-priority order. -/
def searchNode : List String → RadixNode H → Params → Option (SearchRes H)
  | [], node, params => if node.isEndpoint then some ⟨node.handler, params⟩ else none
  | seg :: rest, node, params =>
    let viaExact :=
      match mapGet node.children seg with
      | some c => searchNode rest c params
      | none => none
    match viaExact with
    | some r => some r
    | none =>
      tryChildren (fun c ps => searchNode rest c ps) seg
        (sortWildcards (wildcardsOf node.children)) params

/-! ### The radix tree (radix-tree.js `RadixTree`) -/

/-- A per-method tree: the trie root plus the static-route Map. -/
structure RadixTree (H : Type) : Type where
  root : RadixNode H
  staticRoutes : List (String × SearchRes H)

/-- Embeds `new RadixTree()`. -/
def RadixTree.empty : RadixTree H :=
  ⟨⟨"", [], none, false, none, none, false⟩, []⟩

/-- Embeds `insert(path, handler)`: fully-literal patterns go to the static Map
keyed by the raw pattern string; anything else extends the trie. -/
def RadixTree.insert (t : RadixTree H) (path : String) (h : H) : RadixTree H :=
  let segments := parsePathSegments path
  if segments.all (fun s => !s.isParam) then
    { t with staticRoutes := mapSet t.staticRoutes path ⟨some h, []⟩ }
  else
    { t with root := insertSegs t.root segments h }

/-- Embeds `search(path)`: exact static hit first, else the recursive trie walk on
the slash-split segments (empty segments dropped). -/
def RadixTree.search (t : RadixTree H) (path : String) : Option (SearchRes H) :=
  match mapGet t.staticRoutes path with
  | some r => some r
  | none => searchNode (segsOf path) t.root []

/-! ### Instrumented search

`searchNodeTr` is `searchNode` with one addition: it records every call to
`convertParam` as a `(segment, paramType)` pair, in the order the calls
happen (calls made inside abandoned backtracking branches included).  It is
used to state and prove the test/convert invariant. -/

/-- One recorded `convertParam` call: the candidate segment and the
parameter child's type tag. -/
abbrev ConvCall := String × Option String

/-- The candidate loop, instrumented with its `convertParam` call trace. -/
def tryChildrenTr (recur : RadixNode H → Params → Option (SearchRes H) × List ConvCall)
    (seg : String) :
    List (RadixNode H) → Params → Option (SearchRes H) × List ConvCall
  | [], _ => (none, [])
  | c :: cs, params =>
    if tyTruthy c.paramType && !validateParam seg (c.paramType.getD "") then
      tryChildrenTr recur seg cs params
    else
      let conv : ConvCall := (seg, c.paramType)
      let rec1 := recur c (objSet params (c.paramName.getD "")
        (convertParam seg c.paramType))
      match rec1.1 with
      | some r => (some r, conv :: rec1.2)
      | none =>
        let rest := tryChildrenTr recur seg cs params
        (rest.1, conv :: (rec1.2 ++ rest.2))

/-- Embeds `_searchNode`, instrumented with its `convertParam` call trace. -/
def searchNodeTr : List String → RadixNode H → Params →
    Option (SearchRes H) × List ConvCall
  | [], node, params => (if node.isEndpoint then some ⟨node.handler, params⟩ else none, [])
  | seg :: rest, node, params =>
    let viaExact :=
      match mapGet node.children seg with
      | some c => searchNodeTr rest c params
      | none => (none, [])
    match viaExact.1 with
    | some r => (some r, viaExact.2)
    | none =>
      let viaWild :=
        tryChildrenTr (fun c ps => searchNodeTr rest c ps) seg
          (sortWildcards (wildcardsOf node.children)) params
      (viaWild.1, viaExact.2 ++ viaWild.2)

/-! ### LRU cache (cache.js `LRUCache`)

The Map and the doubly linked list always hold the same nodes, so both are
modelled by one association list kept in recency order (head = most recently
used, tail = least recently used); `size` is the source's explicit counter. -/

/-- An LRU cache: capacity, optional TTL, entries as `(key, value, timestamp)`
in recency order, and the size counter. -/
structure LRUCache (V : Type) : Type where
  maxSize : Nat
  ttl : Option Nat
  entries : List (String × V × Nat)
  size : Nat

/-- Embeds `new LRUCache(maxSize, ttl)`. -/
def LRUCache.empty (maxSize : Nat) (ttl : Option Nat) : LRUCache V :=
  ⟨maxSize, ttl, [], 0⟩

/-- Embeds `this.ttl && age > this.ttl` — a `null` (or `0`, falsy) TTL never
expires anything. -/
def ttlExpired (ttl : Option Nat) (age : Nat) : Bool :=
  match ttl with
  | none => false
  | some t => 0 < t && t < age

/-- Embeds `delete(key)`: remove the node from the Map and the list, decrement
`size`; reports whether the key was present. -/
def LRUCache.delete (c : LRUCache V) (key : String) : Bool × LRUCache V :=
  match c.entries.find? (fun e => e.1 == key) with
  | none => (false, c)
  | some _ =>
    (true, { c with entries := c.entries.filter (fun e => !(e.1 == key)),
                    size := c.size - 1 })

/-- Embeds `get(key)`: miss on an absent key; on a present key, lazily expire it
(delete + miss) when its age exceeds a configured TTL, otherwise move it to
the head (most recently used) and return its value. -/
def LRUCache.get (c : LRUCache V) (now : Nat) (key : String) :
    Option V × LRUCache V :=
  match c.entries.find? (fun e => e.1 == key) with
  | none => (none, c)
  | some (k, v, ts) =>
    if ttlExpired c.ttl (now - ts) then
      (none, (c.delete key).2)
    else
      (some v, { c with entries := (k, v, ts) :: c.entries.filter (fun e => !(e.1 == key)) })

/-- Embeds `set(key, value)`: update value+timestamp in place (and move to head)
when the key exists; otherwise add a new head node, and if the size counter
now exceeds capacity, drop the tail (least recently used) node. -/
def LRUCache.set (c : LRUCache V) (now : Nat) (key : String) (v : V) : LRUCache V :=
  match c.entries.find? (fun e => e.1 == key) with
  | some _ =>
    { c with entries := (key, v, now) :: c.entries.filter (fun e => !(e.1 == key)) }
  | none =>
    let l := (key, v, now) :: c.entries
    let sz := c.size + 1
    if c.maxSize < sz then { c with entries := l.dropLast, size := sz - 1 }
    else { c with entries := l, size := sz }

/-- Embeds `clear()`. -/
def LRUCache.clear (c : LRUCache V) : LRUCache V :=
  { c with entries := [], size := 0 }

/-- The Map view: the entry stored under a key. -/
def LRUCache.lookup (c : LRUCache V) (key : String) : Option (V × Nat) :=
  (c.entries.find? (fun e => e.1 == key)).map (fun e => e.2)

/-- The keys currently in the cache, in recency order. -/
def LRUCache.keys (c : LRUCache V) : List String :=
  c.entries.map (fun e => e.1)

/-! ### Router facade (router.js `VeloxRouter`) -/

/-- A router: one radix tree per supported HTTP method, the route prefix,
and the resolution cache. -/
structure VeloxRouter (H : Type) : Type where
  trees : List (String × RadixTree H)
  pre : String
  cache : LRUCache (SearchRes H)

/-- The methods the constructor creates trees for, in declaration order. -/
def supportedMethods : List String :=
  ["GET", "POST", "PUT", "DELETE", "PATCH", "HEAD", "OPTIONS"]

/-- Embeds `new VeloxRouter()`: seven empty trees, empty prefix, and a
`new LRUCache(1000, 5 * 60 * 1000)` route cache. -/
def VeloxRouter.init : VeloxRouter H :=
  ⟨supportedMethods.map (fun m => (m, RadixTree.empty)), "",
   LRUCache.empty 1000 (some (5 * 60 * 1000))⟩

/-- Embeds `method.toUpperCase()` (character-wise, as a structural map so that the
kernel evaluates it). -/
def jsToUpper (s : String) : String :=
  String.mk (s.data.map Char.toUpper)

/-- Embeds `path.replace(/\/+$/, '')`: strip trailing slashes. -/
def stripTrailingSlashes (path : String) : String :=
  String.mk (path.data.reverse.dropWhile (fun c => c == '/')).reverse

/-- Embeds `addRoute(method, path, handler)` (single-handler form): uppercase the
method, strip trailing slashes (falling back to `'/'` when the result is
empty), error on a method with no tree, else insert into that method's
tree. -/
def VeloxRouter.addRoute (r : VeloxRouter H) (method path : String) (h : H) :
    Except String (VeloxRouter H) :=
  let m := jsToUpper method
  let fullPath :=
    let s := r.pre ++ stripTrailingSlashes path
    if s.isEmpty then "/" else s
  match mapGet r.trees m with
  | none => .error ("Unsupported HTTP method: " ++ m)
  | some t => .ok { r with trees := mapSet r.trees m (t.insert fullPath h) }

/-- The uncached routing semantics: the per-method tree search. -/
def routerSearch (trees : List (String × RadixTree H)) (method path : String) :
    Option (SearchRes H) :=
  match mapGet trees method with
  | none => none
  | some t => t.search path

/-- Embeds `find(method, path)` restricted to method strings that do not
collide with an `Object.prototype` property name (every real HTTP method):
consult the cache under `` `${method}:${path}` ``; on a miss, search the
method's tree (null when the method owns no tree) and cache only a
successful result.  `VeloxRouter.findJS` below is the full plain-object
property-access semantics of `this.trees[method]`, which additionally
throws on the twelve colliding names; the agreement of the two on
non-colliding methods is proved (`findJS_agrees_find`). -/
def VeloxRouter.find (r : VeloxRouter H) (method path : String) (now : Nat) :
    Option (SearchRes H) × VeloxRouter H :=
  let cacheKey := method ++ ":" ++ path
  let got := r.cache.get now cacheKey
  match got.1 with
  | some res => (some res, { r with cache := got.2 })
  | none =>
    match mapGet r.trees method with
    | none => (none, { r with cache := got.2 })
    | some t =>
      match t.search path with
      | some res => (some res, { r with cache := got.2.set now cacheKey res })
      | none => (none, { r with cache := got.2 })

/-- The own property names of `Object.prototype` (ECMAScript, as in Node):
`this.trees` is a plain object literal, so the property read
`this.trees[method]` that misses the seven own keys consults these
inherited names before yielding `undefined`; each of their values (eleven
methods plus the `__proto__` accessor's result) is truthy and is not a
`RadixTree`. -/
def objectPrototypeProps : List String :=
  ["constructor", "__defineGetter__", "__defineSetter__", "hasOwnProperty",
   "__lookupGetter__", "__lookupSetter__", "isPrototypeOf",
   "propertyIsEnumerable", "toString", "valueOf", "__proto__",
   "toLocaleString"]

/-- The value of the plain-object read `this.trees[method]`: an own
per-method tree, a truthy value inherited from `Object.prototype` (not a
tree — invoking `.search` on it throws a `TypeError`), or `undefined`. -/
inductive TreesProp (H : Type) : Type where
  | tree (t : RadixTree H) : TreesProp H
  | inherited : TreesProp H
  | undefinedVal : TreesProp H

/-- Embeds `this.trees[method]` exactly as JavaScript evaluates it: the
object's own keys first, then the `Object.prototype` chain, else
`undefined`. -/
def treesProp (trees : List (String × RadixTree H)) (method : String) :
    TreesProp H :=
  match mapGet trees method with
  | some t => .tree t
  | none =>
    if objectPrototypeProps.contains method then .inherited else .undefinedVal

/-- Embeds `find(method, path)` with the full plain-object property-access
semantics: a cache hit is returned as-is; otherwise `this.trees[method]` is
read through the prototype chain — `undefined` fails the `!tree` guard and
gives null, an own tree is searched (caching a successful result), and a
truthy inherited non-tree value slips past the guard so that
`tree.search(path)` throws a `TypeError` (modelled as `Except.error`; the
cache keeps the mutation the preceding `get` made). -/
def VeloxRouter.findJS (r : VeloxRouter H) (method path : String) (now : Nat) :
    Except String (Option (SearchRes H)) × VeloxRouter H :=
  let cacheKey := method ++ ":" ++ path
  let got := r.cache.get now cacheKey
  match got.1 with
  | some res => (.ok (some res), { r with cache := got.2 })
  | none =>
    match treesProp r.trees method with
    | .undefinedVal => (.ok none, { r with cache := got.2 })
    | .inherited =>
      (.error "TypeError: tree.search is not a function", { r with cache := got.2 })
    | .tree t =>
      match t.search path with
      | some res => (.ok (some res), { r with cache := got.2.set now cacheKey res })
      | none => (.ok none, { r with cache := got.2 })

/-- Register a whole route table from a fresh router, keeping the router
unchanged on a configuration error (used to set up concrete instances). -/
def buildRouter (routes : List (String × String × H)) : VeloxRouter H :=
  routes.foldl (fun r x =>
    match r.addRoute x.1 x.2.1 x.2.2 with
    | .ok r' => r'
    | .error _ => r) VeloxRouter.init

/-- A lookup-phase trace: each `find` call's method, path and clock. -/
def runFinds (r : VeloxRouter H) (ops : List (String × String × Nat)) :
    VeloxRouter H :=
  ops.foldl (fun r x => (r.find x.1 x.2.1 x.2.2).2) r

/-! ### Cache operation sequences (for the size invariant) -/

/-- One externally invokable cache operation. -/
inductive CacheOp (V : Type) : Type where
  | get (now : Nat) (key : String) : CacheOp V
  | set (now : Nat) (key : String) (v : V) : CacheOp V
  | del (key : String) : CacheOp V
  | clear : CacheOp V

/-- Apply one cache operation to the state. -/
def applyOp (c : LRUCache V) : CacheOp V → LRUCache V
  | .get now key => (c.get now key).2
  | .set now key v => c.set now key v
  | .del key => (c.delete key).2
  | .clear => c.clear

/-- Run a sequence of cache operations. -/
def runOps (c : LRUCache V) (ops : List (CacheOp V)) : LRUCache V :=
  ops.foldl applyOp c

/-! ### Derived predicates used by the theorems -/

/-- A pattern with no parameter segment (a static route). -/
def isLiteralPat (p : String) : Bool :=
  (parsePathSegments p).all (fun s => !s.isParam)

/-- Fold a route table into one radix tree. -/
def buildTree (ps : List (String × H)) : RadixTree H :=
  ps.foldl (fun t x => t.insert x.1 x.2) RadixTree.empty

/-- The method string contains no `':'` — true of every real HTTP method;
needed because the cache key is `` `${method}:${path}` ``. -/
@[reducible] def colonFree (s : String) : Prop := ':' ∉ s.data

/-- Every method that owns a tree is colon-free (true of the router the
constructor builds, and preserved by `addRoute`). -/
@[reducible] def treesOK (trees : List (String × RadixTree H)) : Prop :=
  ∀ s ∈ trees.map (fun e => e.1), colonFree s

/-- Cache-contents invariant: every cached entry is the successful result of
the uncached per-method tree search for some method+path spelling of its
key.  (`find` only ever caches such entries; null results are never
cached.) -/
def cacheConsistent (trees : List (String × RadixTree H))
    (c : LRUCache (SearchRes H)) : Prop :=
  ∀ e ∈ c.entries, ∃ m p, m ∈ trees.map (fun x => x.1) ∧
    e.1 = m ++ ":" ++ p ∧ routerSearch trees m p = some e.2.1

/-- Structural well-formedness of a cache state: the size counter agrees
with the number of stored entries and keys are unique (both hold in every
reachable state). -/
def cacheWF (c : LRUCache V) : Prop :=
  c.size = c.entries.length ∧ c.keys.Nodup

/-- The inductive invariant for cache-operation sequences. -/
def cacheInv (N : Nat) (c : LRUCache V) : Prop :=
  cacheWF c ∧ c.size ≤ c.maxSize ∧ c.maxSize = N

end Velox

namespace Velox

/-! ## Association-list helper lemmas -/

theorem find?_key_eq_none {α : Type} {l : List (String × α)} {k : String}
    (h : k ∉ l.map (fun e => e.1)) : l.find? (fun e => e.1 == k) = none := by
  induction l with
  | nil => rfl
  | cons e rest ih =>
    simp only [List.map_cons, List.mem_cons, not_or] at h
    have hbe : (e.1 == k) = false := by simp [Ne.symm h.1]
    simp [List.find?_cons, hbe, ih h.2]

theorem find?_key_some {α : Type} {l : List (String × α)} {k : String}
    {e : String × α} (h : l.find? (fun x => x.1 == k) = some e) :
    e ∈ l ∧ e.1 = k := by
  refine ⟨List.mem_of_find?_eq_some h, ?_⟩
  have := List.find?_some h
  simpa using this

theorem find?_key_self {α : Type} {l : List (String × α)}
    {e : String × α} (hnd : (l.map (fun x => x.1)).Nodup) (he : e ∈ l) :
    l.find? (fun x => x.1 == e.1) = some e := by
  induction l with
  | nil => cases he
  | cons a rest ih =>
    simp only [List.map_cons, List.nodup_cons] at hnd
    rcases List.mem_cons.mp he with rfl | hmem
    · simp [List.find?_cons]
    · have hne : a.1 ≠ e.1 := by
        intro hcontra
        exact hnd.1 (hcontra ▸ List.mem_map_of_mem (fun x => x.1) hmem)
      have hbe : (a.1 == e.1) = false := by simp [hne]
      simp [List.find?_cons, hbe, ih hnd.2 hmem]

theorem filter_key_map {α : Type} (l : List (String × α)) (k : String) :
    (l.filter (fun e => !(e.1 == k))).map (fun e => e.1) =
      (l.map (fun e => e.1)).filter (fun x => !(x == k)) := by
  induction l with
  | nil => rfl
  | cons e rest ih =>
    by_cases h : e.1 = k <;> simp [List.filter_cons, h, ih]

theorem filter_key_sub {α : Type} {l : List (String × α)} {k : String}
    {e : String × α} (h : e ∈ l.filter (fun x => !(x.1 == k))) : e ∈ l :=
  List.mem_of_mem_filter h

theorem filter_key_length {α : Type} {l : List (String × α)} {k : String}
    (hnd : (l.map (fun e => e.1)).Nodup) (hk : k ∈ l.map (fun e => e.1)) :
    (l.filter (fun e => !(e.1 == k))).length + 1 = l.length := by
  induction l with
  | nil => cases hk
  | cons e rest ih =>
    simp only [List.map_cons, List.nodup_cons] at hnd
    rcases List.mem_cons.mp hk with hk1 | hk2
    · have hrest : rest.filter (fun x => !(x.1 == k)) = rest := by
        apply List.filter_eq_self.mpr
        intro x hx
        have hk1' : k = e.1 := hk1
        have hxk : x.1 ≠ k := by
          intro hcontra
          apply hnd.1
          rw [← hk1', ← hcontra]
          exact List.mem_map_of_mem (fun y => y.1) hx
        simp [hxk]
      have hek : (e.1 == k) = true := by simp [hk1]
      simp [List.filter_cons, hek, hrest]
    · have hne : e.1 ≠ k := by
        intro hcontra
        exact hnd.1 (hcontra ▸ hk2)
      have hbe : (e.1 == k) = false := by simp [hne]
      have hih := ih hnd.2 hk2
      simp [List.filter_cons, hbe]
      omega

theorem find?_key_filter_self {α : Type} (l : List (String × α)) (k : String) :
    (l.filter (fun e => !(e.1 == k))).find? (fun e => e.1 == k) = none := by
  apply List.find?_eq_none.mpr
  intro x hx
  have := List.of_mem_filter hx
  simpa using this

theorem mapGet_mapSet_self {α : Type} (m : List (String × α)) (k : String) (v : α) :
    mapGet (mapSet m k v) k = some v := by
  induction m with
  | nil => simp [mapGet, mapSet, List.find?]
  | cons e rest ih =>
    by_cases h : e.1 = k
    · simp [mapSet, mapGet, List.find?_cons, h]
    · have hbe : (e.1 == k) = false := by simp [h]
      simp [mapSet, mapGet, List.find?_cons, hbe] at ih ⊢
      exact ih

theorem mapGet_mapSet_ne {α : Type} (m : List (String × α)) (k k' : String)
    (v : α) (h : k ≠ k') : mapGet (mapSet m k v) k' = mapGet m k' := by
  have hbk : (k == k') = false := by simp [h]
  induction m with
  | nil => simp [mapGet, mapSet, List.find?_cons, hbk]
  | cons e rest ih =>
    by_cases he : e.1 = k
    · have hbe : (e.1 == k) = true := by simp [he]
      have hbe' : (e.1 == k') = false := by simp [he ▸ h]
      simp [mapSet, mapGet, List.find?_cons, hbe, hbe', hbk]
    · have hbe : (e.1 == k) = false := by simp [he]
      by_cases he' : e.1 = k'
      · have hbe' : (e.1 == k') = true := by simp [he']
        simp [mapSet, mapGet, List.find?_cons, hbe, hbe']
      · have hbe' : (e.1 == k') = false := by simp [he']
        simp [mapSet, mapGet, List.find?_cons, hbe, hbe'] at ih ⊢
        exact ih

/-! ## LRU cache lemmas -/

theorem nodup_filter_key {V : Type} {c : LRUCache V}
    (hnd : (c.entries.map (fun x => x.1)).Nodup) (k : String) :
    ((c.entries.filter (fun e => !(e.1 == k))).map (fun x => x.1)).Nodup := by
  rw [filter_key_map]; exact hnd.filter _

theorem key_notin_filter_key {V : Type} (c : LRUCache V) (k : String) :
    k ∉ (c.entries.filter (fun e => !(e.1 == k))).map (fun x => x.1) := by
  rw [filter_key_map]
  intro hmem'
  have := (List.mem_filter.mp hmem').2
  simp at this

theorem delete_snd_wf {V : Type} {c : LRUCache V} (h : cacheWF c) (k : String) :
    cacheWF (c.delete k).2 ∧ (c.delete k).2.size ≤ c.size ∧
    (c.delete k).2.maxSize = c.maxSize ∧ (c.delete k).2.ttl = c.ttl := by
  obtain ⟨hsz, hnd⟩ := h
  simp only [LRUCache.keys] at hnd
  unfold LRUCache.delete
  cases hf : c.entries.find? (fun e => e.1 == k) with
  | none => exact ⟨⟨hsz, hnd⟩, le_refl _, rfl, rfl⟩
  | some e =>
    obtain ⟨hmem, hkey⟩ := find?_key_some hf
    have hk : k ∈ c.entries.map (fun x => x.1) := hkey ▸ List.mem_map_of_mem _ hmem
    have hlen := filter_key_length (l := c.entries) hnd hk
    refine ⟨⟨?_, ?_⟩, ?_, rfl, rfl⟩
    · show c.size - 1 = (c.entries.filter (fun e => !(e.1 == k))).length
      omega
    · show ((c.entries.filter (fun e => !(e.1 == k))).map (fun x => x.1)).Nodup
      exact nodup_filter_key hnd k
    · show c.size - 1 ≤ c.size
      omega

theorem get_snd_wf {V : Type} {c : LRUCache V} (h : cacheWF c) (now : Nat) (k : String) :
    cacheWF (c.get now k).2 ∧ (c.get now k).2.size ≤ c.size ∧
    (c.get now k).2.maxSize = c.maxSize ∧ (c.get now k).2.ttl = c.ttl := by
  obtain ⟨hsz, hnd⟩ := h
  simp only [LRUCache.keys] at hnd
  unfold LRUCache.get
  cases hf : c.entries.find? (fun e => e.1 == k) with
  | none => exact ⟨⟨hsz, hnd⟩, le_refl _, rfl, rfl⟩
  | some e =>
    obtain ⟨k1, v1, ts1⟩ := e
    obtain ⟨hmem, hkey⟩ := find?_key_some hf
    have hk1 : k1 = k := hkey
    have hk : k ∈ c.entries.map (fun x => x.1) := hkey ▸ List.mem_map_of_mem _ hmem
    have hlen := filter_key_length (l := c.entries) hnd hk
    by_cases hexp : ttlExpired c.ttl (now - ts1) = true
    · simp only [hexp, if_true]
      exact delete_snd_wf ⟨hsz, by simpa only [LRUCache.keys] using hnd⟩ k
    · simp only [Bool.not_eq_true] at hexp
      simp only [hexp, Bool.false_eq_true, if_false]
      refine ⟨⟨?_, ?_⟩, ?_, by trivial, by trivial⟩
      · show c.size = ((k1, v1, ts1) :: c.entries.filter (fun e => !(e.1 == k))).length
        simp only [List.length_cons]
        omega
      · show (((k1, v1, ts1) :: c.entries.filter (fun e => !(e.1 == k))).map
          (fun x => x.1)).Nodup
        rw [List.map_cons]
        refine List.nodup_cons.mpr ⟨?_, nodup_filter_key hnd k⟩
        rw [show ((k1, v1, ts1) : String × V × Nat).1 = k from hk1]
        exact key_notin_filter_key c k
      · exact le_refl _

theorem set_wf {V : Type} {c : LRUCache V} (h : cacheWF c)
    (hcap : c.size ≤ c.maxSize) (now : Nat) (k : String) (v : V) :
    cacheWF (c.set now k v) ∧ (c.set now k v).size ≤ c.maxSize ∧
    (c.set now k v).maxSize = c.maxSize ∧ (c.set now k v).ttl = c.ttl := by
  obtain ⟨hsz, hnd⟩ := h
  simp only [LRUCache.keys] at hnd
  unfold LRUCache.set
  cases hf : c.entries.find? (fun e => e.1 == k) with
  | some e =>
    obtain ⟨hmem, hkey⟩ := find?_key_some hf
    have hk : k ∈ c.entries.map (fun x => x.1) := hkey ▸ List.mem_map_of_mem _ hmem
    have hlen := filter_key_length (l := c.entries) hnd hk
    refine ⟨⟨?_, ?_⟩, hcap, rfl, rfl⟩
    · show c.size = ((k, v, now) :: c.entries.filter (fun e => !(e.1 == k))).length
      simp only [List.length_cons]
      omega
    · show (((k, v, now) :: c.entries.filter (fun e => !(e.1 == k))).map
        (fun x => x.1)).Nodup
      rw [List.map_cons]
      exact List.nodup_cons.mpr ⟨key_notin_filter_key c k, nodup_filter_key hnd k⟩
  | none =>
    have hknotin : k ∉ c.entries.map (fun x => x.1) := by
      intro hkmem
      obtain ⟨e, hmem, hkey⟩ := List.mem_map.mp hkmem
      have hne := List.find?_eq_none.mp hf e hmem
      simp [hkey] at hne
    have hndcons : (((k, v, now) :: c.entries).map (fun x => x.1)).Nodup := by
      rw [List.map_cons]
      exact List.nodup_cons.mpr ⟨hknotin, hnd⟩
    by_cases hover : c.maxSize < c.size + 1
    · simp only [hover, if_true]
      refine ⟨⟨?_, ?_⟩, ?_, by trivial, by trivial⟩
      · show c.size + 1 - 1 = (((k, v, now) :: c.entries).dropLast).length
        simp only [List.length_dropLast, List.length_cons]
        omega
      · show ((((k, v, now) :: c.entries).dropLast).map (fun x => x.1)).Nodup
        exact hndcons.sublist ((List.dropLast_sublist _).map _)
      · show c.size + 1 - 1 ≤ c.maxSize
        omega
    · simp only [hover, if_false]
      refine ⟨⟨?_, ?_⟩, ?_, by trivial, by trivial⟩
      · show c.size + 1 = ((k, v, now) :: c.entries).length
        simp only [List.length_cons]
        omega
      · show (((k, v, now) :: c.entries).map (fun x => x.1)).Nodup
        exact hndcons
      · show c.size + 1 ≤ c.maxSize
        omega

theorem get_fst_some {V : Type} {c : LRUCache V} {now : Nat} {k : String} {v : V}
    (h : (c.get now k).1 = some v) :
    ∃ ts, (k, v, ts) ∈ c.entries ∧ ttlExpired c.ttl (now - ts) = false := by
  unfold LRUCache.get at h
  cases hf : c.entries.find? (fun e => e.1 == k) with
  | none => rw [hf] at h; cases h
  | some e =>
    obtain ⟨k1, v1, ts1⟩ := e
    rw [hf] at h
    obtain ⟨hmem, hkey⟩ := find?_key_some hf
    have hk1 : k1 = k := hkey
    by_cases hexp : ttlExpired c.ttl (now - ts1) = true
    · simp only [hexp, if_true] at h; cases h
    · simp only [Bool.not_eq_true] at hexp
      simp only [hexp, Bool.false_eq_true, if_false] at h
      obtain rfl : v1 = v := by simpa using h
      exact ⟨ts1, hk1 ▸ hmem, hexp⟩

theorem get_entries_sub {V : Type} {c : LRUCache V} {now : Nat} {k : String}
    {e : String × V × Nat} (h : e ∈ (c.get now k).2.entries) : e ∈ c.entries := by
  unfold LRUCache.get at h
  cases hf : c.entries.find? (fun x => x.1 == k) with
  | none => rw [hf] at h; exact h
  | some a =>
    obtain ⟨k1, v1, ts1⟩ := a
    rw [hf] at h
    obtain ⟨hmem, hkey⟩ := find?_key_some hf
    by_cases hexp : ttlExpired c.ttl (now - ts1) = true
    · simp only [hexp, if_true] at h
      unfold LRUCache.delete at h
      cases hf' : c.entries.find? (fun x => x.1 == k) with
      | none => rw [hf'] at h; exact h
      | some b =>
        rw [hf'] at h
        exact filter_key_sub h
    · simp only [Bool.not_eq_true] at hexp
      simp only [hexp, Bool.false_eq_true, if_false] at h
      rcases List.mem_cons.mp h with rfl | h2
      · exact hmem
      · exact filter_key_sub h2

theorem set_entries_cases {V : Type} {c : LRUCache V} {now : Nat} {k : String}
    {v : V} {e : String × V × Nat} (h : e ∈ (c.set now k v).entries) :
    e = (k, v, now) ∨ e ∈ c.entries := by
  unfold LRUCache.set at h
  cases hf : c.entries.find? (fun x => x.1 == k) with
  | some a =>
    rw [hf] at h
    rcases List.mem_cons.mp h with rfl | h2
    · exact Or.inl rfl
    · exact Or.inr (filter_key_sub h2)
  | none =>
    rw [hf] at h
    by_cases hover : c.maxSize < c.size + 1
    · simp only [hover, if_true] at h
      have := (List.dropLast_sublist ((k, v, now) :: c.entries)).mem h
      rcases List.mem_cons.mp this with rfl | h2
      · exact Or.inl rfl
      · exact Or.inr h2
    · simp only [hover, if_false] at h
      rcases List.mem_cons.mp h with rfl | h2
      · exact Or.inl rfl
      · exact Or.inr h2

/-! ## Claim C7 -/

/-- Claim C7 (TTL lazy expiry): with a configured TTL `t`, `get` never
returns an entry whose age `now - timestamp` exceeds `t`; an over-age entry
is deleted from the cache by the `get` itself and the call reports a miss.
No background sweep is involved: the guarantee is a property of `get`
alone. -/
theorem C7_ttl_lazy_expiry {V : Type} (c : LRUCache V) (t : Nat) (k : String)
    (now : Nat) (ht : c.ttl = some t) (htpos : 0 < t) :
    (∀ v, (c.get now k).1 = some v → ∃ ts, c.lookup k = some (v, ts) ∧ now - ts ≤ t) ∧
    (∀ v ts, c.lookup k = some (v, ts) → t < now - ts →
      (c.get now k).1 = none ∧ ((c.get now k).2).lookup k = none) := by
  unfold LRUCache.get LRUCache.lookup
  cases hf : c.entries.find? (fun e => e.1 == k) with
  | none =>
    constructor
    · intro v h; cases h
    · intro v ts h; cases h
  | some e =>
    obtain ⟨k1, v1, ts1⟩ := e
    by_cases hexp : ttlExpired c.ttl (now - ts1) = true
    · simp only [hexp, if_true]
      constructor
      · intro v h; cases h
      · intro v ts h hage
        obtain ⟨rfl, rfl⟩ : v1 = v ∧ ts1 = ts := by
          constructor <;> · injection h with h2; injection h2
        refine ⟨by trivial, ?_⟩
        unfold LRUCache.delete
        rw [hf]
        simp only []
        rw [find?_key_filter_self]
        rfl
    · simp only [Bool.not_eq_true] at hexp
      have hage : now - ts1 ≤ t := by
        unfold ttlExpired at hexp
        rw [ht] at hexp
        simp only [Bool.and_eq_true, decide_eq_true_eq, Bool.and_eq_false_iff] at hexp
        rcases hexp with h1 | h2
        · simp at h1; omega
        · simp at h2; omega
      simp only [hexp, Bool.false_eq_true, if_false]
      constructor
      · intro v h
        obtain rfl : v1 = v := by simpa using h
        exact ⟨ts1, rfl, hage⟩
      · intro v ts h hage'
        obtain ⟨rfl, rfl⟩ : v1 = v ∧ ts1 = ts := by
          constructor <;> · injection h with h2; injection h2
        omega

/-- Witness for C7 at a concrete cache: capacity 10, TTL 5, one entry
`("a", 1)` stored at time 0, queried at time 6. -/
theorem C7_witness :
    ((⟨10, some 5, [("a", (1 : Nat), 0)], 1⟩ : LRUCache Nat).get 6 "a").1 = none ∧
    (((⟨10, some 5, [("a", (1 : Nat), 0)], 1⟩ : LRUCache Nat).get 6 "a").2).lookup "a" = none :=
  (C7_ttl_lazy_expiry (⟨10, some 5, [("a", (1 : Nat), 0)], 1⟩ : LRUCache Nat)
    5 "a" 6 rfl (by decide)).2 1 0 (by decide) (by decide)

/-! ## Claim C10 -/

theorem set_present_spec {V : Type} {c : LRUCache V} (hwf : cacheWF c)
    {k : String} (hk : k ∈ c.keys) (now : Nat) (v : V) :
    (c.set now k v).size = c.size ∧
    (c.set now k v).entries.length = c.entries.length ∧
    (c.set now k v).lookup k = some (v, now) ∧
    (∀ k', k' ∈ (c.set now k v).keys ↔ k' ∈ c.keys) := by
  obtain ⟨hsz, hnd⟩ := hwf
  simp only [LRUCache.keys] at hnd hk
  obtain ⟨e, hmem, hkey⟩ := List.mem_map.mp hk
  unfold LRUCache.set
  cases hf : c.entries.find? (fun x => x.1 == k) with
  | none =>
    have := List.find?_eq_none.mp hf e hmem
    simp [hkey] at this
  | some a =>
    have hlen := filter_key_length (l := c.entries) hnd hk
    refine ⟨rfl, ?_, ?_, ?_⟩
    · show ((k, v, now) :: c.entries.filter (fun x => !(x.1 == k))).length = c.entries.length
      simp only [List.length_cons]
      omega
    · show (((k, v, now) :: c.entries.filter (fun x => !(x.1 == k))).find?
        (fun e => e.1 == k)).map (fun e => e.2) = some (v, now)
      simp [List.find?_cons]
    · intro k'
      show k' ∈ ((k, v, now) :: c.entries.filter (fun x => !(x.1 == k))).map (fun x => x.1) ↔
        k' ∈ c.entries.map (fun x => x.1)
      rw [List.map_cons, filter_key_map]
      constructor
      · intro h
        rcases List.mem_cons.mp h with rfl | h2
        · exact hk
        · exact (List.mem_filter.mp h2).1
      · intro h
        by_cases hkk : k' = k
        · exact hkk ▸ List.mem_cons_self _ _
        · exact List.mem_cons_of_mem _ (List.mem_filter.mpr ⟨h, by simp [hkk]⟩)

theorem cacheInv_applyOp {V : Type} {N : Nat} {c : LRUCache V}
    (h : cacheInv N c) (op : CacheOp V) : cacheInv N (applyOp c op) := by
  obtain ⟨hwf, hcap, hmax⟩ := h
  cases op with
  | get now k =>
    obtain ⟨hwf', hsz, hm, _⟩ := get_snd_wf hwf now k
    show cacheInv N (c.get now k).2
    exact ⟨hwf', by rw [hm]; exact le_trans hsz hcap, hm.trans hmax⟩
  | set now k v =>
    obtain ⟨hwf', hsz, hm, _⟩ := set_wf hwf hcap now k v
    show cacheInv N (c.set now k v)
    exact ⟨hwf', by rw [hm]; exact hsz, hm.trans hmax⟩
  | del k =>
    obtain ⟨hwf', hsz, hm, _⟩ := delete_snd_wf hwf k
    show cacheInv N (c.delete k).2
    exact ⟨hwf', by rw [hm]; exact le_trans hsz hcap, hm.trans hmax⟩
  | clear =>
    exact ⟨⟨rfl, List.nodup_nil⟩, Nat.zero_le _, hmax⟩

theorem cacheInv_runOps {V : Type} {N : Nat} {c : LRUCache V}
    (h : cacheInv N c) (ops : List (CacheOp V)) : cacheInv N (runOps c ops) := by
  induction ops generalizing c with
  | nil => exact h
  | cons op rest ih => exact ih (cacheInv_applyOp h op)

/-- Claim C10 (cache size invariant): for an `LRUCache` of capacity `N ≥ 1`,
after any sequence of get/set/delete/clear operations from the fresh cache
the `size` field never exceeds `N` and always equals the number of stored
keys; and a `set` on an already-present key (in any well-formed state)
updates the value and timestamp in place — same size, same entry count,
same key set, new `(value, timestamp)` under that key. -/
theorem C10_cache_size_invariant {V : Type} (N : Nat) (tl : Option Nat)
    (ops : List (CacheOp V)) (hN : 1 ≤ N) :
    (runOps (LRUCache.empty N tl) ops).size ≤ N ∧
    (runOps (LRUCache.empty N tl) ops).size =
      (runOps (LRUCache.empty N tl) ops).entries.length ∧
    (∀ (c : LRUCache V) (now : Nat) (k : String) (v : V), cacheWF c → k ∈ c.keys →
      (c.set now k v).size = c.size ∧
      (c.set now k v).entries.length = c.entries.length ∧
      (c.set now k v).lookup k = some (v, now) ∧
      (∀ k', k' ∈ (c.set now k v).keys ↔ k' ∈ c.keys)) := by
  have hwf0 : cacheWF (LRUCache.empty (V := V) N tl) :=
    ⟨rfl, by simp [LRUCache.keys, LRUCache.empty]⟩
  have hinv : cacheInv N (runOps (LRUCache.empty N tl) ops) :=
    cacheInv_runOps ⟨hwf0, Nat.zero_le _, rfl⟩ ops
  obtain ⟨⟨hsz, _⟩, hcap, hmax⟩ := hinv
  exact ⟨le_trans hcap (le_of_eq hmax), hsz,
    fun c now k v hwf hk => set_present_spec hwf hk now v⟩

/-- Witness for C10: capacity 2, a sequence that overflows and refreshes,
plus an in-place update on a concrete one-entry cache. -/
theorem C10_witness :
    ((runOps (LRUCache.empty 2 none)
        [CacheOp.set 0 "a" (1 : Nat), CacheOp.set 1 "b" 2, CacheOp.get 2 "a",
         CacheOp.set 3 "c" 3, CacheOp.del "b", CacheOp.clear, CacheOp.set 4 "d" 4]).size ≤ 2 ∧
      (runOps (LRUCache.empty 2 none)
        [CacheOp.set 0 "a" (1 : Nat), CacheOp.set 1 "b" 2, CacheOp.get 2 "a",
         CacheOp.set 3 "c" 3, CacheOp.del "b", CacheOp.clear, CacheOp.set 4 "d" 4]).size =
      (runOps (LRUCache.empty 2 none)
        [CacheOp.set 0 "a" (1 : Nat), CacheOp.set 1 "b" 2, CacheOp.get 2 "a",
         CacheOp.set 3 "c" 3, CacheOp.del "b", CacheOp.clear, CacheOp.set 4 "d" 4]).entries.length) ∧
    ((⟨2, none, [("a", (5 : Nat), 0)], 1⟩ : LRUCache Nat).set 7 "a" 9).lookup "a" = some (9, 7) :=
  ⟨⟨(C10_cache_size_invariant 2 none _ (by decide)).1,
    (C10_cache_size_invariant 2 none _ (by decide)).2.1⟩,
   ((C10_cache_size_invariant (V := Nat) 2 none [] (by decide)).2.2
      (⟨2, none, [("a", (5 : Nat), 0)], 1⟩ : LRUCache Nat) 7 "a" 9
      (by constructor <;> decide) (by decide)).2.2.1⟩

/-! ## Claim C4 -/

theorem get_fst_ttl_none {V : Type} {c : LRUCache V} (h : c.ttl = none)
    (now : Nat) (k : String) :
    (c.get now k).1 = (c.entries.find? (fun e => e.1 == k)).map (fun e => e.2.1) := by
  unfold LRUCache.get
  cases hf : c.entries.find? (fun e => e.1 == k) with
  | none => rfl
  | some e =>
    obtain ⟨k1, v1, ts1⟩ := e
    have hexp : ttlExpired c.ttl (now - ts1) = false := by rw [h]; rfl
    simp [hexp]

/-- Claim C4 (LRU eviction): in a well-formed cache with no TTL that is
exactly at capacity `N ≥ 1`, (i) every cache hit moves the touched entry to
the most-recently-used (head) position, and (ii) a `set` of a fresh key
evicts exactly the tail (least-recently-used) entry: afterwards a `get` on
the evicted key misses while the new key and all other previously cached
keys still hit. -/
theorem C4_lru_eviction {V : Type} (c : LRUCache V) (k : String) (v : V) (now : Nat)
    (hwf : cacheWF c) (httl : c.ttl = none)
    (hfull : c.size = c.maxSize) (hN : 1 ≤ c.maxSize) (hk : k ∉ c.keys) :
    (∀ k' v' now', (c.get now' k').1 = some v' →
      ∃ ts, ((c.get now' k').2.entries.head? = some (k', v', ts))) ∧
    (∃ lru rest, c.entries = rest ++ [lru] ∧
      (c.set now k v).entries = (k, v, now) :: rest ∧
      (∀ now', ((c.set now k v).get now' lru.1).1 = none) ∧
      (∀ now', ((c.set now k v).get now' k).1 = some v) ∧
      (∀ e ∈ rest, ∀ now', ((c.set now k v).get now' e.1).1 = some e.2.1)) := by
  obtain ⟨hsz, hnd⟩ := hwf
  simp only [LRUCache.keys] at hnd hk
  constructor
  · intro k' v' now' hget
    unfold LRUCache.get at hget ⊢
    cases hf : c.entries.find? (fun e => e.1 == k') with
    | none => rw [hf] at hget; cases hget
    | some e =>
      obtain ⟨k1, v1, ts1⟩ := e
      rw [hf] at hget
      have hk1 : k1 = k' := (find?_key_some hf).2
      have hexp : ttlExpired c.ttl (now' - ts1) = false := by rw [httl]; rfl
      simp only [hexp, Bool.false_eq_true, if_false] at hget ⊢
      obtain rfl : v1 = v' := by simpa using hget
      exact ⟨ts1, by simp [hk1]⟩
  · have hne : c.entries ≠ [] := by
      intro hcon
      rw [hcon] at hsz
      simp only [List.length_nil] at hsz
      omega
    rcases List.eq_nil_or_concat c.entries with hcon | ⟨rest, lru, hsplit⟩
    · exact absurd hcon hne
    rw [List.concat_eq_append] at hsplit
    have hfnone : c.entries.find? (fun e => e.1 == k) = none := find?_key_eq_none hk
    have hover : c.maxSize < c.size + 1 := by omega
    have hsetE : (c.set now k v).entries = (k, v, now) :: rest := by
      unfold LRUCache.set
      rw [hfnone]
      simp only [hover, if_true]
      show ((k, v, now) :: c.entries).dropLast = (k, v, now) :: rest
      rw [hsplit, ← List.cons_append, List.dropLast_concat]
    have hsetT : (c.set now k v).ttl = none := by
      unfold LRUCache.set
      rw [hfnone]
      simp only [hover, if_true]
      exact httl
    have hndsplit : (rest.map (fun e => e.1) ++ [lru.1]).Nodup := by
      have := hsplit ▸ hnd
      simpa [List.map_append] using this
    have hrestnd : (rest.map (fun e => e.1)).Nodup :=
      (List.nodup_append.mp hndsplit).1
    have hdisj := (List.nodup_append.mp hndsplit).2.2
    have hlru_rest : lru.1 ∉ rest.map (fun e => e.1) := by
      intro hmem
      exact hdisj hmem (by simp)
    have hlru_mem : lru.1 ∈ c.entries.map (fun e => e.1) := by
      rw [hsplit, List.map_append]
      simp
    have hk_lru : (k == lru.1) = false := by
      simp only [beq_eq_false_iff_ne, ne_eq]
      intro hcon
      exact hk (hcon ▸ hlru_mem)
    refine ⟨lru, rest, hsplit, hsetE, ?_, ?_, ?_⟩
    · intro now'
      rw [get_fst_ttl_none hsetT, hsetE]
      rw [List.find?_cons]
      simp only [hk_lru]
      rw [find?_key_eq_none hlru_rest]
      rfl
    · intro now'
      rw [get_fst_ttl_none hsetT, hsetE]
      rw [List.find?_cons]
      simp
    · intro e hmem now'
      have he_mem : e.1 ∈ c.entries.map (fun x => x.1) := by
        rw [hsplit, List.map_append]
        exact List.mem_append_left _ (List.mem_map_of_mem _ hmem)
      have hk_e : (k == e.1) = false := by
        simp only [beq_eq_false_iff_ne, ne_eq]
        intro hcon
        exact hk (hcon ▸ he_mem)
      rw [get_fst_ttl_none hsetT, hsetE]
      rw [List.find?_cons]
      simp only [hk_e]
      rw [find?_key_self hrestnd hmem]
      rfl

/-- Witness for C4 at a concrete cache: capacity 2 holding `b` (MRU) and
`a` (LRU); setting fresh key `c` evicts `a` while `b` and `c` still hit. -/
theorem C4_witness :
    ((⟨2, none, [("b", (20 : Nat), 1), ("a", 10, 0)], 2⟩ : LRUCache Nat).set 5 "c" 30).entries =
      [("c", 30, 5), ("b", 20, 1)] ∧
    (((⟨2, none, [("b", (20 : Nat), 1), ("a", 10, 0)], 2⟩ : LRUCache Nat).set 5 "c" 30).get 6 "a").1 = none ∧
    (((⟨2, none, [("b", (20 : Nat), 1), ("a", 10, 0)], 2⟩ : LRUCache Nat).set 5 "c" 30).get 6 "c").1 = some 30 ∧
    (((⟨2, none, [("b", (20 : Nat), 1), ("a", 10, 0)], 2⟩ : LRUCache Nat).set 5 "c" 30).get 6 "b").1 = some 20 := by
  have h := C4_lru_eviction (⟨2, none, [("b", (20 : Nat), 1), ("a", 10, 0)], 2⟩ : LRUCache Nat)
    "c" 30 5 ⟨by decide, by decide⟩ rfl rfl (by decide) (by decide)
  obtain ⟨-, lru, rest, hsplit, hsetE, hmiss, hhitk, hhit⟩ := h
  obtain ⟨rfl, rfl⟩ : rest = [("b", (20 : Nat), 1)] ∧ lru = ("a", 10, 0) := by
    have h1 : rest ++ [lru] = [("b", (20 : Nat), 1), ("a", 10, 0)] := hsplit.symm
    cases rest with
    | nil => simp at h1
    | cons x xs =>
      cases xs with
      | nil =>
        simp only [List.cons_append, List.nil_append, List.cons.injEq] at h1
        exact ⟨by rw [h1.1], by rw [h1.2.1]⟩
      | cons y ys => simp at h1
  exact ⟨hsetE, hmiss 6, hhitk 6, hhit ("b", 20, 1) (by simp) 6⟩

/-! ## Router lemmas -/

theorem searchNode_empty_root {H : Type} (segs : List String) (params : Params) :
    searchNode segs (⟨"", [], none, false, none, none, false⟩ : RadixNode H) params = none := by
  cases segs with
  | nil => rfl
  | cons s rest => rfl

theorem mapGet_isSome_iff {α : Type} (l : List (String × α)) (k : String) :
    (∃ v, mapGet l k = some v) ↔ k ∈ l.map (fun e => e.1) := by
  induction l with
  | nil => simp [mapGet, List.find?]
  | cons e rest ih =>
    by_cases h : e.1 = k
    · have hbe : (e.1 == k) = true := by simp [h]
      simp [mapGet, List.find?_cons, hbe, h.symm]
    · have hbe : (e.1 == k) = false := by simp [h]
      simp only [mapGet, List.find?_cons, hbe] at ih ⊢
      rw [List.map_cons, List.mem_cons]
      constructor
      · intro hv
        exact Or.inr (ih.mp hv)
      · intro hv
        rcases hv with hv | hv
        · exact absurd hv.symm h
        · exact ih.mpr hv

/-- Claim C6 counterexample: the method string `"get"` lies outside the set
`{GET, POST, PUT, DELETE, PATCH, HEAD, OPTIONS}`, yet `addRoute` accepts it
without error (it uppercases the method before the check), refuting the
claim as stated. -/
theorem C6_counterexample :
    "get" ∉ supportedMethods ∧
    ∃ r', (VeloxRouter.init (H := Nat)).addRoute "get" "/a" 1 = .ok r' := by
  exact ⟨by decide, ⟨_, rfl⟩⟩

/-- Claim C6 (amended): a method whose uppercased form has no per-method
tree makes `addRoute` throw synchronously, and any method with a tree is
accepted (the uppercased method never collides with an `Object.prototype`
name, so `addRoute`'s `!this.trees[method]` guard is an own-key check); on
the constructor's router the methods with trees are exactly
`{GET, POST, PUT, DELETE, PATCH, HEAD, OPTIONS}`; `find` (which does not
uppercase) never throws for a method that does not collide with an
`Object.prototype` property name, and with no pre-existing cache entries it
returns `null` and leaves the router unchanged when the method has no
tree; a tree-less method that does collide (e.g. `"constructor"`) instead
throws a `TypeError` at lookup time — a prototype-chain leak, not a
configuration-time error. -/
theorem C6_unsupported_method_config_time (H : Type) (r : VeloxRouter H)
    (method path : String) (h : H) (now : Nat) :
    (mapGet r.trees (jsToUpper method) = none →
      r.addRoute method path h =
        .error ("Unsupported HTTP method: " ++ jsToUpper method)) ∧
    (∀ t, mapGet r.trees (jsToUpper method) = some t →
      ∃ r', r.addRoute method path h = .ok r') ∧
    (∀ m, (∃ t, mapGet (VeloxRouter.init (H := H)).trees m = some t) ↔
      m ∈ supportedMethods) ∧
    (r.cache.entries = [] → mapGet r.trees method = none →
      objectPrototypeProps.contains method = false →
      (r.findJS method path now).1 = .ok none ∧
      (r.findJS method path now).2 = r) ∧
    (r.cache.entries = [] → mapGet r.trees method = none →
      objectPrototypeProps.contains method = true →
      (r.findJS method path now).1 =
        .error "TypeError: tree.search is not a function") := by
  have hg : r.cache.entries = [] →
      r.cache.get now (method ++ ":" ++ path) = (none, r.cache) := by
    intro hcache
    unfold LRUCache.get
    rw [hcache]
    rfl
  refine ⟨?_, ?_, ?_, ?_, ?_⟩
  · intro hnone
    unfold VeloxRouter.addRoute
    simp only []
    rw [hnone]
  · intro t ht
    unfold VeloxRouter.addRoute
    simp only []
    rw [ht]
    exact ⟨_, rfl⟩
  · intro m
    rw [mapGet_isSome_iff]
    show m ∈ (supportedMethods.map (fun s => (s, RadixTree.empty (H := H)))).map
      (fun e => e.1) ↔ m ∈ supportedMethods
    rw [List.map_map]
    simp
  · intro hcache hnone hproto
    unfold VeloxRouter.findJS treesProp
    simp only []
    rw [hg hcache, hnone]
    simp only [hproto, Bool.false_eq_true, if_false]
    exact ⟨by trivial, by trivial⟩
  · intro hcache hnone hproto
    unfold VeloxRouter.findJS treesProp
    simp only []
    rw [hg hcache, hnone]
    simp only [hproto, if_true]

/-- Witness for the amended C6: `"TRACE"` errors at registration time but
is a clean null at lookup time, while the tree-less `"constructor"` throws
at lookup time. -/
theorem C6_witness :
    (VeloxRouter.init (H := Nat)).addRoute "TRACE" "/a" 1 =
      .error ("Unsupported HTTP method: " ++ jsToUpper "TRACE") ∧
    ((VeloxRouter.init (H := Nat)).findJS "TRACE" "/a" 0).1 = .ok none ∧
    ((VeloxRouter.init (H := Nat)).findJS "constructor" "/a" 0).1 =
      .error "TypeError: tree.search is not a function" :=
  ⟨(C6_unsupported_method_config_time Nat VeloxRouter.init "TRACE" "/a" 1 0).1 rfl,
   ((C6_unsupported_method_config_time Nat VeloxRouter.init "TRACE" "/a" 1 0).2.2.2.1
      rfl rfl (by decide)).1,
   (C6_unsupported_method_config_time Nat VeloxRouter.init "constructor" "/a" 1 0).2.2.2.2
      rfl rfl (by decide)⟩

/-! ## Claim C1 -/

/-- Claim C1 (type disambiguation): with `/users/:id=string` (handler 1) and
`/users/:id=number` (handler 2) both registered under GET, `find` on
`/users/42` yields handler 2 with `id` bound to the number `42`, and on
`/users/bob` handler 1 with `id` bound to the string `"bob"` — `number` is a
registered validator type and `string` is not, so the `number` child is
tried first. -/
theorem C1_type_disambiguation :
    ((buildRouter [("GET", "/users/:id=string", (1 : Nat)), ("GET", "/users/:id=number", 2)]).find
      "GET" "/users/42" 0).1 = some ⟨some 2, [("id", PVal.num 42)]⟩ ∧
    ((buildRouter [("GET", "/users/:id=string", (1 : Nat)), ("GET", "/users/:id=number", 2)]).find
      "GET" "/users/bob" 0).1 = some ⟨some 1, [("id", PVal.str "bob")]⟩ ∧
    "number" ∈ validatorTypes ∧ "string" ∉ validatorTypes :=
  ⟨by decide, by decide, by decide, by decide⟩

/-! ## Claim C3 -/

/-- Claim C3 fails on the code (code bug): a `*` segment does not start with
`':'`, so `_parsePathSegments` classifies it as a literal; `/files/*` is
therefore a fully-literal pattern stored in the static-route Map under the
raw string `"/files/*"`, and `find(GET, "/files/a/b/c")` returns `null`
instead of the handler the spec's trailing-wildcard rule promises. -/
theorem C3_wildcard_code_eval :
    parsePathSegments "/files/*" = [.lit "files", .lit "*"] ∧
    (RadixTree.empty.insert "/files/*" (1 : Nat)).staticRoutes =
      [("/files/*", ⟨some 1, []⟩)] ∧
    (RadixTree.empty.insert "/files/*" (1 : Nat)).search "/files/a/b/c" = none ∧
    (RadixTree.empty.insert "/files/*" (1 : Nat)).search "/files/*" = some ⟨some 1, []⟩ ∧
    ((buildRouter [("GET", "/files/*", (1 : Nat))]).find "GET" "/files/a/b/c" 0).1 = none :=
  ⟨by decide, by decide, by decide, by decide, by decide⟩

/-! ## Claim C8 -/

theorem validateParam_empty_ty (seg : String) : validateParam seg "" = true := rfl

theorem tryChildrenTr_spec {H : Type}
    (recurTr : RadixNode H → Params → Option (SearchRes H) × List ConvCall)
    (recur : RadixNode H → Params → Option (SearchRes H))
    (seg : String) (cs : List (RadixNode H)) (params : Params)
    (hrec : ∀ c ps, (recurTr c ps).1 = recur c ps)
    (htr : ∀ c ps e, e ∈ (recurTr c ps).2 → ∀ t, e.2 = some t →
      validateParam e.1 t = true) :
    (tryChildrenTr recurTr seg cs params).1 = tryChildren recur seg cs params ∧
    (∀ e ∈ (tryChildrenTr recurTr seg cs params).2, ∀ t, e.2 = some t →
      validateParam e.1 t = true) := by
  induction cs generalizing params with
  | nil =>
    refine ⟨rfl, ?_⟩
    intro e he
    cases he
  | cons c cs ih =>
    by_cases hskip :
        (tyTruthy c.paramType && !validateParam seg (c.paramType.getD "")) = true
    · unfold tryChildrenTr tryChildren
      simp only [hskip, if_true]
      exact ih params
    · have hbool :
          (tyTruthy c.paramType && !validateParam seg (c.paramType.getD "")) = false :=
        Bool.eq_false_iff.mpr hskip
      have hconv : ∀ t, c.paramType = some t → validateParam seg t = true := by
        intro t ht
        rw [ht] at hbool
        rcases Bool.and_eq_false_iff.mp hbool with h1 | h2
        · have ht' : t = "" := by
            cases t with
            | mk l =>
              cases l with
              | nil => rfl
              | cons a as => simp [tyTruthy] at h1
          rw [ht']
          exact validateParam_empty_ty seg
        · have : validateParam seg ((some t).getD "") = true := by
            simpa using h2
          simpa using this
      unfold tryChildrenTr tryChildren
      simp only [hbool, Bool.false_eq_true, if_false]
      rcases hrtr : recurTr c
          (objSet params (c.paramName.getD "") (convertParam seg c.paramType))
        with ⟨r1, tr1⟩
      have hr1 : r1 = recur c
          (objSet params (c.paramName.getD "") (convertParam seg c.paramType)) := by
        rw [← hrec, hrtr]
      obtain ⟨ih1, ih2⟩ := ih params
      have htr1 : ∀ e ∈ tr1, ∀ t, e.2 = some t → validateParam e.1 t = true := by
        intro e he
        exact htr c _ e (by rw [hrtr]; exact he)
      rw [← hr1]
      cases hre : r1 with
      | some r =>
        refine ⟨rfl, ?_⟩
        intro e he t het
        rcases List.mem_cons.mp he with rfl | he2
        · exact hconv t het
        · exact htr1 e he2 t het
      | none =>
        refine ⟨ih1, ?_⟩
        intro e he t het
        rcases List.mem_cons.mp he with rfl | he2
        · exact hconv t het
        · rcases List.mem_append.mp he2 with he3 | he3
          · exact htr1 e he3 t het
          · exact ih2 e he3 t het

/-- Claim C8 (validator test/convert invariant): the instrumented search
returns the same result as `_searchNode` and records every `convertParam`
call it makes; every recorded call on a candidate with a type tag `t` has
`validateParam(segment, t) = true` — i.e. `test(s) == false` for a typed
candidate implies `convert` is never invoked for that candidate, the failed
candidate branch being skipped instead. -/
theorem C8_validator_convert_guard {H : Type} (segs : List String)
    (node : RadixNode H) (params : Params) :
    (searchNodeTr segs node params).1 = searchNode segs node params ∧
    (∀ e ∈ (searchNodeTr segs node params).2, ∀ t, e.2 = some t →
      validateParam e.1 t = true) := by
  induction segs generalizing node params with
  | nil =>
    refine ⟨rfl, ?_⟩
    intro e he
    cases he
  | cons seg rest ih =>
    have hrec : ∀ (c : RadixNode H) ps, (searchNodeTr rest c ps).1 = searchNode rest c ps :=
      fun c ps => (ih c ps).1
    have htr : ∀ (c : RadixNode H) ps e, e ∈ (searchNodeTr rest c ps).2 →
        ∀ t, e.2 = some t → validateParam e.1 t = true :=
      fun c ps e he t het => (ih c ps).2 e he t het
    have hwild := tryChildrenTr_spec (fun c ps => searchNodeTr rest c ps)
      (fun c ps => searchNode rest c ps) seg
      (sortWildcards (wildcardsOf node.children)) params hrec htr
    unfold searchNodeTr searchNode
    simp only []
    cases hex : mapGet node.children seg with
    | none =>
      simp only []
      refine ⟨hwild.1, ?_⟩
      intro e he t het
      rw [List.nil_append] at he
      exact hwild.2 e he t het
    | some c =>
      simp only []
      rcases hTr : searchNodeTr rest c params with ⟨re, tre⟩
      have hre : re = searchNode rest c params := by
        rw [← hrec c params, hTr]
      have htre : ∀ e ∈ tre, ∀ t, e.2 = some t → validateParam e.1 t = true := by
        intro e he
        exact htr c params e (by rw [hTr]; exact he)
      rw [← hre]
      cases hcre : re with
      | some r =>
        refine ⟨rfl, ?_⟩
        intro e he t het
        exact htre e he t het
      | none =>
        refine ⟨hwild.1, ?_⟩
        intro e he t het
        rcases List.mem_append.mp he with he2 | he2
        · exact htre e he2 t het
        · exact hwild.2 e he2 t het

/-- Witness for C8 at a concrete tree and lookup: the instrumented search of
`/users/abc` against `/users/:id=number` agrees with the plain search. -/
theorem C8_witness :
    (searchNodeTr ["users", "abc"]
      (buildTree [("/users/:id=number", (1 : Nat))]).root []).1 =
    searchNode ["users", "abc"]
      (buildTree [("/users/:id=number", (1 : Nat))]).root [] :=
  (C8_validator_convert_guard ["users", "abc"]
    (buildTree [("/users/:id=number", (1 : Nat))]).root []).1

/-! ## Claim C9 -/

theorem static_fold_lit {H : Type} (ps : List (String × H)) (t : RadixTree H)
    (hlit : ∀ x ∈ ps, isLiteralPat x.1 = true) :
    (ps.foldl (fun t x => t.insert x.1 x.2) t).root = t.root ∧
    (∀ q, (mapGet (ps.foldl (fun t x => t.insert x.1 x.2) t).staticRoutes q).isSome = true ↔
      (q ∈ ps.map (fun x => x.1) ∨ (mapGet t.staticRoutes q).isSome = true)) := by
  induction ps generalizing t with
  | nil => simp
  | cons x ps ih =>
    have hx : (parsePathSegments x.1).all (fun s => !s.isParam) = true :=
      hlit x (List.mem_cons_self _ _)
    have hx' : t.insert x.1 x.2 =
        { t with staticRoutes := mapSet t.staticRoutes x.1 ⟨some x.2, []⟩ } := by
      unfold RadixTree.insert
      simp only [hx, if_true]
    obtain ⟨ih1, ih2⟩ := ih (t.insert x.1 x.2)
      (fun y hy => hlit y (List.mem_cons_of_mem _ hy))
    rw [List.foldl_cons]
    constructor
    · rw [ih1, hx']
    · intro q
      rw [ih2 q, hx']
      by_cases hq : x.1 = q
      · subst hq
        simp [mapGet_mapSet_self]
      · rw [show mapGet (mapSet t.staticRoutes x.1 ⟨some x.2, []⟩) q =
            mapGet t.staticRoutes q from mapGet_mapSet_ne _ _ _ _ hq]
        simp only [List.map_cons, List.mem_cons]
        constructor
        · intro h
          rcases h with h | h
          · exact Or.inl (Or.inr h)
          · exact Or.inr h
        · intro h
          rcases h with (h | h) | h
          · exact absurd h.symm hq
          · exact Or.inl h
          · exact Or.inr h

theorem static_fold_par {H : Type} (ps : List (String × H)) (t : RadixTree H)
    (hpar : ∀ x ∈ ps, isLiteralPat x.1 = false) :
    (ps.foldl (fun t x => t.insert x.1 x.2) t).staticRoutes = t.staticRoutes ∧
    (ps.foldl (fun t x => t.insert x.1 x.2) t).root =
      ps.foldl (fun n x => insertSegs n (parsePathSegments x.1) x.2) t.root := by
  induction ps generalizing t with
  | nil => exact ⟨rfl, rfl⟩
  | cons x ps ih =>
    have hx : (parsePathSegments x.1).all (fun s => !s.isParam) = false :=
      hpar x (List.mem_cons_self _ _)
    have hx' : t.insert x.1 x.2 =
        { t with root := insertSegs t.root (parsePathSegments x.1) x.2 } := by
      unfold RadixTree.insert
      simp only [hx, Bool.false_eq_true, if_false]
    obtain ⟨ih1, ih2⟩ := ih (t.insert x.1 x.2)
      (fun y hy => hpar y (List.mem_cons_of_mem _ hy))
    rw [List.foldl_cons]
    exact ⟨by rw [ih1, hx'], by rw [ih2, hx', List.foldl_cons]⟩

/-- Claim C9 (implicit trailing-slash asymmetry): static routes are matched
only by exact string equality on the whole runtime path, while trie routes
are matched on the slash-split segment list with empty segments dropped.
Hence in a tree built from purely-literal patterns, an inserted pattern `p`
matches but `p ++ "/"` does not; in a tree built from parameterized
patterns, any two runtime paths with the same segment list (e.g. a path
with a trailing or duplicated slash) match identically. -/
theorem C9_trailing_slash_asymmetry {H : Type} (ps : List (String × H)) :
    ((∀ x ∈ ps, isLiteralPat x.1 = true) → ∀ p, p ∈ ps.map (fun x => x.1) →
      (p ++ "/") ∉ ps.map (fun x => x.1) →
      ((buildTree ps).search p).isSome = true ∧
      (buildTree ps).search (p ++ "/") = none) ∧
    ((∀ x ∈ ps, isLiteralPat x.1 = false) → ∀ q q', segsOf q = segsOf q' →
      (buildTree ps).search q = (buildTree ps).search q') := by
  constructor
  · intro hlit p hp hpslash
    obtain ⟨hroot, hstatic⟩ := static_fold_lit ps RadixTree.empty hlit
    constructor
    · have hsome : (mapGet (buildTree ps).staticRoutes p).isSome = true := by
        rw [show buildTree ps = ps.foldl (fun t x => t.insert x.1 x.2) RadixTree.empty
          from rfl] at *
        rw [hstatic p]
        exact Or.inl hp
      obtain ⟨v, hv⟩ := Option.isSome_iff_exists.mp hsome
      unfold RadixTree.search
      rw [hv]
      rfl
    · have hnone : mapGet (buildTree ps).staticRoutes (p ++ "/") = none := by
        rw [← Option.not_isSome_iff_eq_none]
        intro hcon
        rw [show buildTree ps = ps.foldl (fun t x => t.insert x.1 x.2) RadixTree.empty
          from rfl] at hcon
        rcases (hstatic (p ++ "/")).mp (by simpa using hcon) with h | h
        · exact hpslash h
        · simp [RadixTree.empty, mapGet, List.find?] at h
      unfold RadixTree.search
      rw [hnone]
      rw [show (buildTree ps).root = RadixTree.empty.root from hroot]
      exact searchNode_empty_root _ _
  · intro hpar q q' hseg
    obtain ⟨hstatic, -⟩ := static_fold_par ps RadixTree.empty hpar
    have hs : (buildTree ps).staticRoutes = [] := hstatic
    unfold RadixTree.search
    rw [hs]
    show (match (none : Option (SearchRes H)) with
      | some r => some r
      | none => searchNode (segsOf q) (buildTree ps).root []) =
      (match (none : Option (SearchRes H)) with
      | some r => some r
      | none => searchNode (segsOf q') (buildTree ps).root [])
    rw [hseg]

/-- Witness for C9: the literal route `/health` matches itself but not
`/health/`, while the parameterized route `/users/:id` matches `/users/42`,
`/users/42/` and `/users//42` identically. -/
theorem C9_witness :
    (((buildTree [("/health", (1 : Nat))]).search "/health").isSome = true ∧
      (buildTree [("/health", (1 : Nat))]).search "/health/" = none) ∧
    (buildTree [("/users/:id", (2 : Nat))]).search "/users/42" =
      (buildTree [("/users/:id", (2 : Nat))]).search "/users/42/" ∧
    (buildTree [("/users/:id", (2 : Nat))]).search "/users/42" =
      (buildTree [("/users/:id", (2 : Nat))]).search "/users//42" :=
  ⟨(C9_trailing_slash_asymmetry [("/health", (1 : Nat))]).1 (by decide)
      "/health" (by decide) (by decide),
   (C9_trailing_slash_asymmetry [("/users/:id", (2 : Nat))]).2 (by decide)
      "/users/42" "/users/42/" (by decide),
   (C9_trailing_slash_asymmetry [("/users/:id", (2 : Nat))]).2 (by decide)
      "/users/42" "/users//42" (by decide)⟩

/-! ## Claim C2 -/

theorem append_colon_inj {l1 l2 r1 r2 : List Char}
    (h1 : ':' ∉ l1) (h2 : ':' ∉ l2)
    (h : l1 ++ ':' :: r1 = l2 ++ ':' :: r2) : l1 = l2 ∧ r1 = r2 := by
  induction l1 generalizing l2 with
  | nil =>
    cases l2 with
    | nil => simpa using h
    | cons b l2 =>
      simp only [List.nil_append, List.cons_append, List.cons.injEq] at h
      have hb : ':' ∈ b :: l2 := by
        rw [← h.1]
        exact List.mem_cons_self _ _
      exact absurd hb h2
  | cons a l1 ih =>
    cases l2 with
    | nil =>
      simp only [List.cons_append, List.nil_append, List.cons.injEq] at h
      have ha : ':' ∈ a :: l1 := by
        rw [h.1]
        exact List.mem_cons_self _ _
      exact absurd ha h1
    | cons b l2 =>
      simp only [List.cons_append, List.cons.injEq] at h
      obtain ⟨rfl, h⟩ := h
      have hr := ih (fun hc => h1 (List.mem_cons_of_mem _ hc))
        (fun hc => h2 (List.mem_cons_of_mem _ hc)) h
      exact ⟨by rw [hr.1], hr.2⟩

theorem string_data_inj {s1 s2 : String} (h : s1.data = s2.data) : s1 = s2 := by
  cases s1
  cases s2
  exact congrArg String.mk h

theorem data_append (a b : String) : (a ++ b).data = a.data ++ b.data := by
  cases a
  cases b
  rfl

theorem cacheKey_inj {m1 p1 m2 p2 : String} (h1 : colonFree m1) (h2 : colonFree m2)
    (h : m1 ++ ":" ++ p1 = m2 ++ ":" ++ p2) : m1 = m2 ∧ p1 = p2 := by
  have hd : m1.data ++ ':' :: p1.data = m2.data ++ ':' :: p2.data := by
    have hc := congrArg String.data h
    simpa [data_append, List.append_assoc] using hc
  obtain ⟨hm, hp⟩ := append_colon_inj h1 h2 hd
  exact ⟨string_data_inj hm, string_data_inj hp⟩

theorem find_spec {H : Type} (r : VeloxRouter H) (m p : String) (now : Nat)
    (hT : treesOK r.trees) (hI : cacheConsistent r.trees r.cache) :
    (colonFree m → (r.find m p now).1 = routerSearch r.trees m p) ∧
    (r.find m p now).2.trees = r.trees ∧
    (r.find m p now).2.pre = r.pre ∧
    cacheConsistent r.trees (r.find m p now).2.cache := by
  unfold VeloxRouter.find
  simp only []
  cases hg : (r.cache.get now (m ++ ":" ++ p)).1 with
  | some res =>
    refine ⟨?_, rfl, rfl, ?_⟩
    · intro hm
      obtain ⟨ts, hmem, -⟩ := get_fst_some hg
      obtain ⟨m', p', hm'mem, hkey, hsearch⟩ := hI _ hmem
      have hm' : colonFree m' := hT m' hm'mem
      obtain ⟨rfl, rfl⟩ := cacheKey_inj hm' hm hkey.symm
      exact hsearch.symm
    · intro e he
      exact hI e (get_entries_sub he)
  | none =>
    cases ht : mapGet r.trees m with
    | none =>
      refine ⟨?_, rfl, rfl, ?_⟩
      · intro hm
        unfold routerSearch
        rw [ht]
      · intro e he
        exact hI e (get_entries_sub he)
    | some t =>
      simp only []
      cases hs : t.search p with
      | some res =>
        refine ⟨?_, rfl, rfl, ?_⟩
        · intro hm
          simp [routerSearch, ht, hs]
        · intro e he
          rcases set_entries_cases he with rfl | he2
          · refine ⟨m, p, ?_, rfl, ?_⟩
            · exact (mapGet_isSome_iff r.trees m).mp ⟨t, ht⟩
            · show routerSearch r.trees m p = some res
              simp [routerSearch, ht, hs]
          · exact hI e (get_entries_sub he2)
      | none =>
        refine ⟨?_, rfl, rfl, ?_⟩
        · intro hm
          simp [routerSearch, ht, hs]
        · intro e he
          exact hI e (get_entries_sub he)

theorem runFinds_spec {H : Type} (r : VeloxRouter H)
    (ops : List (String × String × Nat))
    (hT : treesOK r.trees) (hI : cacheConsistent r.trees r.cache) :
    (runFinds r ops).trees = r.trees ∧
    cacheConsistent r.trees (runFinds r ops).cache := by
  induction ops generalizing r with
  | nil => exact ⟨rfl, hI⟩
  | cons op rest ih =>
    obtain ⟨m, p, now⟩ := op
    obtain ⟨-, h2, -, h4⟩ := find_spec r m p now hT hI
    have ih' := ih (r.find m p now).2 (by rw [h2]; exact hT) (by rw [h2]; exact h4)
    have hrun : runFinds r ((m, p, now) :: rest) = runFinds (r.find m p now).2 rest := by
      unfold runFinds
      rw [List.foldl_cons]
    rw [hrun]
    exact ⟨ih'.1.trans h2, by rw [h2] at ih'; exact ih'.2⟩

/-- Claim C2 (amended): with all routes registered before any lookup (an
empty cache) and every tree-owning method colon-free, any `find` whose
method string contains no `':'` returns exactly what the direct per-method
tree search returns, regardless of the interleaved lookup history — so
bypassing, disabling, or clearing the cache never changes such a result,
only its latency; and every cache entry ever present is a successful search
result under its key's method/path split, so `null` results are never
cached.  (A method string containing `':'` can alias another method+path's
cache key; see the counterexample.) -/
theorem C2_cache_transparency {H : Type} (r0 : VeloxRouter H)
    (hT : treesOK r0.trees) (hC : r0.cache.entries = [])
    (ops : List (String × String × Nat)) (m p : String) (now : Nat)
    (hm : colonFree m) :
    ((runFinds r0 ops).find m p now).1 = routerSearch r0.trees m p ∧
    (∀ e ∈ (runFinds r0 ops).cache.entries, ∃ m' p',
      e.1 = m' ++ ":" ++ p' ∧ routerSearch r0.trees m' p' = some e.2.1) := by
  have hI0 : cacheConsistent r0.trees r0.cache := by
    intro e he
    rw [hC] at he
    cases he
  obtain ⟨ht, hI⟩ := runFinds_spec r0 ops hT hI0
  have hspec := find_spec (runFinds r0 ops) m p now
    (by rw [ht]; exact hT) (by rw [ht]; exact hI)
  constructor
  · rw [hspec.1 hm, ht]
  · intro e he
    obtain ⟨m', p', -, hkey, hsearch⟩ := hI e he
    exact ⟨m', p', hkey, hsearch⟩

/-- Claim C2 counterexample: after `find(GET, "/x:y")` caches its hit under
the key `"GET:/x:y"`, the call `find("GET:/x", "y")` — a method string the
claim's universal quantification covers — builds the same cache key, hits,
and returns the handler, while the direct per-method tree search for method
`"GET:/x"` returns `none`: cache and no-cache behaviour differ, refuting
the claim as stated. -/
theorem C2_method_colon_counterexample :
    (let r0 : VeloxRouter Nat := buildRouter [("GET", "/:a", 7)]
     let r1 := (r0.find "GET" "/x:y" 0).2
     (r1.find "GET:/x" "y" 0).1 = some ⟨some 7, [("a", .str "x:y")]⟩ ∧
       routerSearch r0.trees "GET:/x" "y" = none) := by
  decide

/-- Witness for the amended C2 at a concrete router and lookup history. -/
theorem C2_witness :
    ((runFinds (buildRouter [("GET", "/a", (1 : Nat))])
        [("GET", "/a", 0), ("POST", "/a", 1), ("GET", "/nope", 2)]).find
      "GET" "/a" 3).1 =
    routerSearch (buildRouter [("GET", "/a", (1 : Nat))]).trees "GET" "/a" :=
  (C2_cache_transparency (buildRouter [("GET", "/a", (1 : Nat))])
    (by decide) (by decide)
    [("GET", "/a", 0), ("POST", "/a", 1), ("GET", "/nope", 2)]
    "GET" "/a" 3 (by decide)).1

end Velox
